import Mathlib

/-!
Shallow embedding of the rsa-fdh crate (src/lib.rs and src/blind.rs).
Bytes are big-endian lists of naturals and big integers are naturals.
The crate's private `common` module and the external `rsa::internals`
helpers are not under src/, so they are modelled from the specification;
each such definition says so in its doc comment.
-/

/-- Big-endian byte interpretation, as num-bigint BigUint::from_bytes_be. -/
def fromBytesBE (l : List Nat) : Nat :=
  l.foldl (fun acc b => acc * 256 + b) 0

/-- Auxiliary big-endian encoder: emits the base-256 digits of x, most
significant first; the first argument is a structural fuel bound, sufficient
whenever it is at least x. -/
def toBytesBEAux : Nat → Nat → List Nat
  | _, 0 => []
  | 0, _+1 => []
  | fuel+1, x+1 => toBytesBEAux fuel ((x+1) / 256) ++ [(x+1) % 256]

/-- Minimal big-endian encoding, as num-bigint BigUint::to_bytes_be (zero
encodes to the single byte 0, and leading zero bytes are never produced). -/
def toBytesBE (x : Nat) : List Nat :=
  if x = 0 then [0] else toBytesBEAux x x

/-- Auxiliary bit-length: the first argument is a structural fuel bound,
sufficient whenever it is at least x. -/
def bitLenAux : Nat → Nat → Nat
  | _, 0 => 0
  | 0, _+1 => 0
  | fuel+1, x+1 => bitLenAux fuel ((x+1) / 2) + 1

/-- Bit length of a natural number, as num-bigint BigUint::bits. -/
def bitLen (n : Nat) : Nat :=
  bitLenAux n n

/-- Byte length of the modulus, ceil(bitlen(n)/8), as RsaPublicKey::size. -/
def modByteLen (n : Nat) : Nat :=
  (bitLen n + 7) / 8

/-- Modular inverse by exhaustive search below the modulus; 0 when none exists. -/
def modInverse (a n : Nat) : Nat :=
  ((List.range n).find? (fun b => a * b % n == 1)).getD 0

/-- An RSA public key: modulus and public exponent. -/
structure RsaPublicKey where
  n : Nat
  e : Nat
deriving DecidableEq

/-- An RSA private key: modulus, public exponent and private exponent. -/
structure RsaPrivateKey where
  n : Nat
  e : Nat
  d : Nat
deriving DecidableEq

/-- RsaPrivateKey::to_public_key of the rsa crate: keep modulus and public
exponent. -/
def RsaPrivateKey.to_public_key (k : RsaPrivateKey) : RsaPublicKey :=
  ⟨k.n, k.e⟩

/-- Modelled from the spec: the crate's common::Error (common.rs is not under
src/), following the three error kinds of the specification. -/
inductive Error where
  | InputError
  | HashingError
  | VerificationError
deriving DecidableEq

/-- A cryptographic hash function with a fixed positive output length: the
interface behind the H hash-function type parameter of the crate. -/
structure HashFn where
  out : List Nat → List Nat
  outLen : Nat
  pos : 0 < outLen
  len_eq : ∀ x, (out x).length = outLen

/-- Modelled from the spec: the sub-counter extension step of the hash
expander in the crate's common module (not under src/): concatenate hashes of
the input followed by a sub-counter. -/
def extendHash (H : HashFn) (input : List Nat) : Nat → List Nat
  | 0 => []
  | j+1 => extendHash H input j ++ H.out (input ++ [j])

/-- Modelled from the spec: one attempt of the hash expander: extend then
truncate the concatenated hash output to exactly k bytes. -/
def expandBytes (H : HashFn) (input : List Nat) (k : Nat) : List Nat :=
  (extendHash H input k).take k

/-- Modelled from the spec: the retry loop of common::hash_message (not under
src/): hash the message together with a counter, retry while the value is not
below n, with a bounded retry limit. -/
def hashMessageAux (H : HashFn) (n : Nat) (message : List Nat) : Nat → Nat → Except Error (List Nat × Nat)
  | 0, _ => .error .HashingError
  | fuel+1, ctr =>
    let d := expandBytes H (message ++ [ctr]) (modByteLen n)
    if fromBytesBE d < n then .ok (d, ctr)
    else hashMessageAux H n message fuel (ctr + 1)

/-- Modelled from the spec: common::hash_message (not under src/), the full
domain hash expander: deterministic given message, modulus and hash function;
returns the digest and the retry counter. -/
def hash_message (H : HashFn) (pub : RsaPublicKey) (message : List Nat) : Except Error (List Nat × Nat) :=
  hashMessageAux H pub.n message 256 0

/-- Pad a minimal encoding to a fixed byte length with leading zeros. -/
def toBytesBEPad (x k : Nat) : List Nat :=
  List.replicate (k - (toBytesBE x).length) 0 ++ toBytesBE x

/-- Modelled from the spec: common::sign_hashed (not under src/), the raw
signing primitive signRaw: fails with an input error when x is not below n,
otherwise returns x^d mod n encoded as a signature of modulus byte length.
The random source only feeds the primitive's internal side-channel blinding
and does not affect the returned value, so it is not a parameter here. -/
def sign_hashed (priv : RsaPrivateKey) (hashed : List Nat) : Except Error (List Nat) :=
  if fromBytesBE hashed < priv.n then
    .ok (toBytesBEPad (fromBytesBE hashed ^ priv.d % priv.n) (modByteLen priv.n))
  else .error .InputError

/-- Modelled from the spec: common::verify_hashed (not under src/), the raw
verification primitive verifyRaw: compute sig^e mod n and compare with the
expected digest; any mismatch is the one generic verification failure. -/
def verify_hashed (pub : RsaPublicKey) (hashed sig : List Nat) : Except Error Unit :=
  if fromBytesBE sig ^ pub.e % pub.n = fromBytesBE hashed then .ok ()
  else .error .VerificationError

/-- The sign facade of src/lib.rs: derive the public key, full-domain hash the
message, then raw-sign the digest. -/
def sign (H : HashFn) (priv : RsaPrivateKey) (message : List Nat) : Except Error (List Nat) :=
  match hash_message H priv.to_public_key message with
  | .error e => .error e
  | .ok (hashed, _iv) => sign_hashed priv hashed

/-- The verify facade of src/lib.rs: full-domain hash the message, then
raw-verify the signature against the digest. -/
def verify (H : HashFn) (pub : RsaPublicKey) (message sig : List Nat) : Except Error Unit :=
  match hash_message H pub message with
  | .error e => .error e
  | .ok (hashed, _iv) => verify_hashed pub hashed sig

/-- Modelled from the spec: rsa::internals::blind, the external blinding
helper (the rsa crate is a collaborator, not under src/): with drawn
invertible factor r, the blinded value is c * r^e mod n and the unblinder is
r. Randomness is modelled by passing the drawn factor explicitly. -/
def internals_blind (pub : RsaPublicKey) (c r : Nat) : Nat × Nat :=
  ((c * r ^ pub.e) % pub.n, r)

/-- Modelled from the spec: rsa::internals::unblind, the external unblinding
helper (the rsa crate is a collaborator, not under src/): multiply the blinded
signature by the inverse of the unblinder mod n. -/
def internals_unblind (pub : RsaPublicKey) (s u : Nat) : Nat :=
  s * modInverse u pub.n % pub.n

/-- The hash_message wrapper of src/blind.rs: the digest without the counter. -/
def blind_hash_message (H : HashFn) (pub : RsaPublicKey) (message : List Nat) : Except Error (List Nat) :=
  match hash_message H pub message with
  | .error e => .error e
  | .ok (result, _iv) => .ok result

/-- The blind function of src/blind.rs: decode the digest bytes, blind with
the drawn factor r, return blinded digest and unblinder as byte encodings. -/
def blind (pub : RsaPublicKey) (digest : List Nat) (r : Nat) : List Nat × List Nat :=
  (toBytesBE (internals_blind pub (fromBytesBE digest) r).1,
    toBytesBE (internals_blind pub (fromBytesBE digest) r).2)

/-- The unblind function of src/blind.rs: decode the blinded signature and the
unblinder, unblind, encode the result. -/
def unblind (pub : RsaPublicKey) (blinded_sig unblinder : List Nat) : List Nat :=
  toBytesBE (internals_unblind pub (fromBytesBE blinded_sig) (fromBytesBE unblinder))

/-- Transcribed from the spec interface (section 6): the hash expander
expand(pubKey, message) returning only the digest. Used to state the
refinement claim comparing the facades with the spec compositions. -/
def expand (H : HashFn) (pub : RsaPublicKey) (message : List Nat) : Except Error (List Nat) :=
  (hash_message H pub message).map Prod.fst

/-- Transcribed from the spec sentence: plain signing is signRaw applied to
the expansion of the message under the public key derived from the private
key. -/
def signSpec (H : HashFn) (priv : RsaPrivateKey) (message : List Nat) : Except Error (List Nat) :=
  (expand H priv.to_public_key message).bind (fun digest => sign_hashed priv digest)

/-- Transcribed from the spec sentence: plain verification is verifyRaw on
the expansion of the message. -/
def verifySpec (H : HashFn) (pub : RsaPublicKey) (message sig : List Nat) : Except Error Unit :=
  (expand H pub message).bind (fun digest => verify_hashed pub digest sig)

/-- A degenerate but admissible hash function for concrete instances: one
output byte, always 7. -/
def hash7 : HashFn :=
  ⟨fun _ => [7], 1, by omega, fun _ => rfl⟩

/-- A degenerate but admissible hash function for concrete instances: one
output byte, always 0. -/
def hash0 : HashFn :=
  ⟨fun _ => [0], 1, by omega, fun _ => rfl⟩

/-- A tiny valid RSA key: n = 3 * 5, e = d = 3 (3 * 3 = 9 is 1 mod lam(15) = 4). -/
def priv15 : RsaPrivateKey :=
  ⟨15, 3, 3⟩

/-- A two-byte valid RSA key: n = 13 * 23 = 299, e = 5, d = 53
(5 * 53 = 265 is 1 mod lam(299) = 132). -/
def priv299 : RsaPrivateKey :=
  ⟨299, 5, 53⟩

/-! Helper lemmas about the byte encodings. -/

theorem fromBytesBE_shift (l : List Nat) : ∀ a : Nat,
    l.foldl (fun acc b => acc * 256 + b) a = a * 256 ^ l.length + fromBytesBE l := by
  induction l with
  | nil => intro a; simp [fromBytesBE]
  | cons b t ih =>
    intro a
    simp only [List.foldl_cons, List.length_cons]
    rw [ih (a * 256 + b)]
    have hb : fromBytesBE (b :: t) = b * 256 ^ t.length + fromBytesBE t := by
      have : fromBytesBE (b :: t) = t.foldl (fun acc c => acc * 256 + c) (0 * 256 + b) := rfl
      rw [this]
      have hz : 0 * 256 + b = b := by ring
      rw [hz, ih b]
    rw [hb]
    ring

theorem fromBytesBE_append (l1 l2 : List Nat) :
    fromBytesBE (l1 ++ l2) = fromBytesBE l1 * 256 ^ l2.length + fromBytesBE l2 := by
  show (l1 ++ l2).foldl _ 0 = _
  rw [List.foldl_append]
  exact fromBytesBE_shift l2 _

theorem fromBytesBE_replicate_zero (j : Nat) : fromBytesBE (List.replicate j 0) = 0 := by
  induction j with
  | zero => rfl
  | succ m ih =>
    rw [List.replicate_succ]
    show (List.replicate m 0).foldl _ (0 * 256 + 0) = 0
    simpa [fromBytesBE] using ih

theorem fromBytesBE_pad (x k : Nat) :
    fromBytesBE (toBytesBEPad x k) = fromBytesBE (toBytesBE x) := by
  unfold toBytesBEPad
  rw [fromBytesBE_append, fromBytesBE_replicate_zero]
  ring

theorem toBytesBEAux_spec : ∀ fuel x : Nat, x ≤ fuel →
    fromBytesBE (toBytesBEAux fuel x) = x ∧
      ∀ k : Nat, x < 256 ^ k → (toBytesBEAux fuel x).length ≤ k := by
  intro fuel
  induction fuel with
  | zero =>
    intro x hx
    have hx0 : x = 0 := Nat.le_zero.mp hx
    subst hx0
    exact ⟨rfl, fun k _ => by simp [toBytesBEAux]⟩
  | succ f ih =>
    intro x hx
    cases x with
    | zero => exact ⟨rfl, fun k _ => by simp [toBytesBEAux]⟩
    | succ m =>
      have hdiv : (m + 1) / 256 ≤ f := by
        have h1 : (m + 1) / 256 < m + 1 := Nat.div_lt_self (Nat.succ_pos m) (by omega)
        omega
      obtain ⟨ihr, ihl⟩ := ih ((m + 1) / 256) hdiv
      constructor
      · show fromBytesBE (toBytesBEAux f ((m + 1) / 256) ++ [(m + 1) % 256]) = m + 1
        rw [fromBytesBE_append, ihr]
        have h1 : fromBytesBE [(m + 1) % 256] = (m + 1) % 256 := by
          show 0 * 256 + (m + 1) % 256 = _
          ring
        rw [h1]
        simp only [List.length_singleton, pow_one]
        omega
      · intro k hk
        cases k with
        | zero => simp at hk
        | succ j =>
          have hq : (m + 1) / 256 < 256 ^ j := by
            rw [Nat.div_lt_iff_lt_mul (by omega : 0 < 256)]
            calc m + 1 < 256 ^ (j + 1) := hk
              _ = 256 ^ j * 256 := by rw [Nat.pow_succ]
          have := ihl j hq
          show (toBytesBEAux f ((m + 1) / 256) ++ [(m + 1) % 256]).length ≤ j + 1
          rw [List.length_append]
          simp only [List.length_singleton]
          omega

theorem fromBytesBE_toBytesBE (x : Nat) : fromBytesBE (toBytesBE x) = x := by
  unfold toBytesBE
  by_cases hx : x = 0
  · simp [hx]; rfl
  · rw [if_neg hx]; exact (toBytesBEAux_spec x x le_rfl).1

theorem toBytesBE_inj {a b : Nat} (h : toBytesBE a = toBytesBE b) : a = b := by
  have := congrArg fromBytesBE h
  rwa [fromBytesBE_toBytesBE, fromBytesBE_toBytesBE] at this

theorem toBytesBE_length_le {x k : Nat} (hk : 0 < k) (hx : x < 256 ^ k) :
    (toBytesBE x).length ≤ k := by
  unfold toBytesBE
  by_cases hx0 : x = 0
  · simp [hx0]; omega
  · rw [if_neg hx0]; exact (toBytesBEAux_spec x x le_rfl).2 k hx

theorem toBytesBEPad_length {x k : Nat} (h : (toBytesBE x).length ≤ k) :
    (toBytesBEPad x k).length = k := by
  unfold toBytesBEPad
  rw [List.length_append, List.length_replicate]
  omega

theorem bitLenAux_spec : ∀ fuel x : Nat, x ≤ fuel →
    x < 2 ^ bitLenAux fuel x ∧ (0 < x → 0 < bitLenAux fuel x) := by
  intro fuel
  induction fuel with
  | zero =>
    intro x hx
    have hx0 : x = 0 := Nat.le_zero.mp hx
    subst hx0
    exact ⟨by simp [bitLenAux], by omega⟩
  | succ f ih =>
    intro x hx
    cases x with
    | zero => exact ⟨by simp [bitLenAux], by omega⟩
    | succ m =>
      have hdiv : (m + 1) / 2 ≤ f := by
        have h1 : (m + 1) / 2 < m + 1 := Nat.div_lt_self (Nat.succ_pos m) (by omega)
        omega
      obtain ⟨ihr, _⟩ := ih ((m + 1) / 2) hdiv
      constructor
      · show m + 1 < 2 ^ (bitLenAux f ((m + 1) / 2) + 1)
        rw [Nat.pow_succ]
        omega
      · intro _
        show 0 < bitLenAux f ((m + 1) / 2) + 1
        omega

theorem lt_pow_bitLen (n : Nat) : n < 2 ^ bitLen n :=
  (bitLenAux_spec n n le_rfl).1

theorem bitLen_pos {n : Nat} (hn : 0 < n) : 0 < bitLen n :=
  (bitLenAux_spec n n le_rfl).2 hn

theorem lt_pow_modByteLen (n : Nat) : n < 256 ^ modByteLen n := by
  have h1 : n < 2 ^ bitLen n := lt_pow_bitLen n
  have h2 : bitLen n ≤ 8 * modByteLen n := by
    unfold modByteLen; omega
  calc n < 2 ^ bitLen n := h1
    _ ≤ 2 ^ (8 * modByteLen n) := Nat.pow_le_pow_right (by omega) h2
    _ = 256 ^ modByteLen n := by rw [Nat.pow_mul]

theorem modByteLen_pos {n : Nat} (hn : 0 < n) : 0 < modByteLen n := by
  have h1 : 0 < bitLen n := bitLen_pos hn
  unfold modByteLen; omega

/-! Helper lemmas about the modular inverse and the hash expander. -/

theorem modInverse_mul {a n : Nat} (hn : 1 < n) (h : Nat.Coprime a n) :
    a * modInverse a n % n = 1 := by
  obtain ⟨m, hm⟩ := Nat.exists_mul_emod_eq_one_of_coprime h hn
  have hb : a * (m % n) % n = 1 := by
    have hc := (Nat.mod_modEq m n).mul_left a
    unfold Nat.ModEq at hc
    rw [hc]
    exact hm
  have hsome : ((List.range n).find? (fun b => a * b % n == 1)).isSome := by
    refine List.find?_isSome.mpr ⟨m % n, List.mem_range.mpr (Nat.mod_lt m (by omega)), ?_⟩
    simpa using hb
  obtain ⟨b, hfind⟩ := Option.isSome_iff_exists.mp hsome
  have hpb := List.find?_some hfind
  have hmi : modInverse a n = b := by unfold modInverse; rw [hfind]; rfl
  rw [hmi]
  simpa using hpb

theorem extendHash_length (H : HashFn) (input : List Nat) :
    ∀ j : Nat, (extendHash H input j).length = j * H.outLen := by
  intro j
  induction j with
  | zero => simp [extendHash]
  | succ m ih =>
    rw [extendHash, List.length_append, ih, H.len_eq]
    ring

theorem expandBytes_length (H : HashFn) (input : List Nat) (k : Nat) :
    (expandBytes H input k).length = k := by
  unfold expandBytes
  rw [List.length_take, extendHash_length]
  have hpos := H.pos
  have : k ≤ k * H.outLen := by
    calc k = k * 1 := by ring
      _ ≤ k * H.outLen := Nat.mul_le_mul_left k hpos
  omega

theorem hashMessageAux_ok (H : HashFn) (n : Nat) (msg : List Nat) :
    ∀ (fuel ctr : Nat) (d : List Nat) (iv : Nat),
      hashMessageAux H n msg fuel ctr = .ok (d, iv) →
      fromBytesBE d < n ∧ d.length = modByteLen n ∧
        d = expandBytes H (msg ++ [iv]) (modByteLen n) := by
  intro fuel
  induction fuel with
  | zero =>
    intro ctr d iv h
    simp [hashMessageAux] at h
  | succ f ih =>
    intro ctr d iv h
    rw [hashMessageAux] at h
    by_cases hc : fromBytesBE (expandBytes H (msg ++ [ctr]) (modByteLen n)) < n
    · simp only [hc, if_true] at h
      have hd : d = expandBytes H (msg ++ [ctr]) (modByteLen n) ∧ iv = ctr := by
        cases h
        exact ⟨rfl, rfl⟩
      obtain ⟨hd1, hd2⟩ := hd
      subst hd1
      subst hd2
      exact ⟨hc, expandBytes_length H _ _, rfl⟩
    · simp only [hc, if_false] at h
      exact ih (ctr + 1) d iv h

theorem hashMessageAux_error (H : HashFn) (n : Nat) (msg : List Nat) :
    ∀ (fuel ctr : Nat) (e : Error),
      hashMessageAux H n msg fuel ctr = .error e → e = .HashingError := by
  intro fuel
  induction fuel with
  | zero =>
    intro ctr e h
    simp [hashMessageAux] at h
    exact h.symm
  | succ f ih =>
    intro ctr e h
    rw [hashMessageAux] at h
    by_cases hc : fromBytesBE (expandBytes H (msg ++ [ctr]) (modByteLen n)) < n
    · simp [hc] at h
    · simp only [hc, if_false] at h
      exact ih (ctr + 1) e h

theorem hash_message_ok {H : HashFn} {pub : RsaPublicKey} {msg d : List Nat} {iv : Nat}
    (h : hash_message H pub msg = .ok (d, iv)) :
    fromBytesBE d < pub.n ∧ d.length = modByteLen pub.n := by
  have := hashMessageAux_ok H pub.n msg 256 0 d iv h
  exact ⟨this.1, this.2.1⟩

theorem hash_message_error {H : HashFn} {pub : RsaPublicKey} {msg : List Nat} {e : Error}
    (h : hash_message H pub msg = .error e) : e = .HashingError :=
  hashMessageAux_error H pub.n msg 256 0 e h

/-! Core arithmetic lemmas for the RSA round trips. -/

theorem to_public_key_n (k : RsaPrivateKey) : k.to_public_key.n = k.n := rfl

theorem to_public_key_e (k : RsaPrivateKey) : k.to_public_key.e = k.e := rfl

theorem rsa_sign_verify_core {n d e x : Nat}
    (hkey : ∀ y, y < n → y ^ (d * e) % n = y) (hx : x < n) :
    (x ^ d % n) ^ e % n = x := by
  rw [← Nat.pow_mod, ← pow_mul]
  exact hkey x hx

theorem rsa_unblind_core {n d e v r : Nat} (hn : 1 < n)
    (hkey : ∀ y, y < n → y ^ (d * e) % n = y)
    (hr : r < n) (hcop : Nat.Coprime r n) :
    (v * r ^ e % n) ^ d % n * modInverse r n % n = v ^ d % n := by
  have hri : r * modInverse r n % n = 1 := modInverse_mul hn hcop
  have hriM : r * modInverse r n ≡ 1 [MOD n] := by
    unfold Nat.ModEq
    rw [hri, Nat.mod_eq_of_lt hn]
  have h1 : (v * r ^ e % n) ^ d ≡ (v * r ^ e) ^ d [MOD n] :=
    (Nat.mod_modEq _ n).pow d
  have h2 : (v * r ^ e) ^ d = v ^ d * r ^ (e * d) := by
    rw [mul_pow, ← pow_mul]
  have h3 : r ^ (e * d) ≡ r [MOD n] := by
    unfold Nat.ModEq
    rw [mul_comm e d, hkey r hr, Nat.mod_eq_of_lt hr]
  have h5 : (v * r ^ e % n) ^ d * modInverse r n ≡ v ^ d [MOD n] := by
    calc (v * r ^ e % n) ^ d * modInverse r n
        ≡ (v * r ^ e) ^ d * modInverse r n [MOD n] := h1.mul_right _
      _ = v ^ d * r ^ (e * d) * modInverse r n := by rw [h2]
      _ ≡ v ^ d * r * modInverse r n [MOD n] :=
          (((Nat.ModEq.refl (v ^ d)).mul h3).mul_right _)
      _ = v ^ d * (r * modInverse r n) := by ring
      _ ≡ v ^ d * 1 [MOD n] := (Nat.ModEq.refl _).mul hriM
      _ = v ^ d := by ring
  have h7 : (v * r ^ e % n) ^ d % n * modInverse r n ≡ v ^ d [MOD n] :=
    ((Nat.mod_modEq _ n).mul_right _).trans h5
  exact h7

/-! Unfolding equations for the facades. -/

theorem sign_of_hash_ok {H : HashFn} {priv : RsaPrivateKey} {m dg : List Nat} {iv : Nat}
    (hh : hash_message H priv.to_public_key m = .ok (dg, iv)) :
    sign H priv m = sign_hashed priv dg := by
  unfold sign
  rw [hh]

theorem sign_of_hash_error {H : HashFn} {priv : RsaPrivateKey} {m : List Nat} {e : Error}
    (hh : hash_message H priv.to_public_key m = .error e) :
    sign H priv m = .error e := by
  unfold sign
  rw [hh]

theorem verify_of_hash_ok {H : HashFn} {pub : RsaPublicKey} {m dg sig : List Nat} {iv : Nat}
    (hh : hash_message H pub m = .ok (dg, iv)) :
    verify H pub m sig = verify_hashed pub dg sig := by
  unfold verify
  rw [hh]

theorem verify_of_hash_error {H : HashFn} {pub : RsaPublicKey} {m sig : List Nat} {e : Error}
    (hh : hash_message H pub m = .error e) :
    verify H pub m sig = .error e := by
  unfold verify
  rw [hh]

theorem blind_hash_message_of_ok {H : HashFn} {pub : RsaPublicKey} {m dg : List Nat} {iv : Nat}
    (hh : hash_message H pub m = .ok (dg, iv)) :
    blind_hash_message H pub m = .ok dg := by
  unfold blind_hash_message
  rw [hh]

theorem blind_hash_message_of_error {H : HashFn} {pub : RsaPublicKey} {m : List Nat} {e : Error}
    (hh : hash_message H pub m = .error e) :
    blind_hash_message H pub m = .error e := by
  unfold blind_hash_message
  rw [hh]

theorem sign_hashed_of_lt {priv : RsaPrivateKey} {hashed : List Nat}
    (h : fromBytesBE hashed < priv.n) :
    sign_hashed priv hashed =
      .ok (toBytesBEPad (fromBytesBE hashed ^ priv.d % priv.n) (modByteLen priv.n)) := by
  unfold sign_hashed
  rw [if_pos h]

/-! Claim theorems. -/

/-- C1: for every message, every RSA key pair whose public key is derived
from the private key, and every hash function, plain verification of a plain
signature succeeds: whenever sign returns Ok with signature s, verify of s
under the derived public key returns Ok. The key-pair hypothesis states that
(priv, pub) is a valid RSA pair: decryption then encryption is the identity
below the modulus. -/
theorem sign_verify_roundtrip (H : HashFn) (priv : RsaPrivateKey) (m s : List Nat)
    (hkey : ∀ x, x < priv.n → x ^ (priv.d * priv.e) % priv.n = x)
    (hs : sign H priv m = .ok s) :
    verify H priv.to_public_key m s = .ok () := by
  cases hh : hash_message H priv.to_public_key m with
  | error e =>
    rw [sign_of_hash_error hh] at hs
    exact absurd hs (by simp)
  | ok p =>
    obtain ⟨dg, iv⟩ := p
    rw [sign_of_hash_ok hh] at hs
    have hd : fromBytesBE dg < priv.n := (hash_message_ok hh).1
    rw [sign_hashed_of_lt hd] at hs
    have hs2 : toBytesBEPad (fromBytesBE dg ^ priv.d % priv.n) (modByteLen priv.n) = s := by
      injection hs
    subst hs2
    rw [verify_of_hash_ok hh]
    unfold verify_hashed
    rw [to_public_key_e, to_public_key_n]
    rw [fromBytesBE_pad, fromBytesBE_toBytesBE]
    rw [rsa_sign_verify_core hkey hd]
    simp

/-- Witness for C1 at the concrete key n = 15, e = d = 3, the constant hash
function and the empty message. -/
theorem sign_verify_roundtrip_witness :
    (∀ x, x < priv15.n → x ^ (priv15.d * priv15.e) % priv15.n = x) ∧
      sign hash7 priv15 [] = .ok [13] ∧
      verify hash7 priv15.to_public_key [] [13] = .ok () :=
  ⟨by decide, rfl, sign_verify_roundtrip hash7 priv15 [] [13] (by decide) rfl⟩

/-- C4: whenever the full-domain hash expander of src/blind.rs succeeds, the
digest has exactly modulus-byte-length bytes and its big-endian value is
strictly below the modulus. -/
theorem expander_domain_bound (H : HashFn) (pub : RsaPublicKey) (m dg : List Nat)
    (h : blind_hash_message H pub m = .ok dg) :
    dg.length = modByteLen pub.n ∧ fromBytesBE dg < pub.n := by
  cases hh : hash_message H pub m with
  | error e =>
    rw [blind_hash_message_of_error hh] at h
    exact absurd h (by simp)
  | ok p =>
    obtain ⟨d2, iv⟩ := p
    rw [blind_hash_message_of_ok hh] at h
    have h2 : d2 = dg := by injection h
    subst h2
    exact ⟨(hash_message_ok hh).2, (hash_message_ok hh).1⟩

/-- Witness for C4: the expander at the key n = 15 and the empty message. -/
theorem expander_domain_bound_witness :
    blind_hash_message hash7 priv15.to_public_key [] = .ok [7] ∧
      ([7] : List Nat).length = modByteLen priv15.to_public_key.n ∧
      fromBytesBE [7] < priv15.to_public_key.n :=
  ⟨rfl, (expander_domain_bound hash7 priv15.to_public_key [] [7] rfl).1,
    (expander_domain_bound hash7 priv15.to_public_key [] [7] rfl).2⟩

/-- C7: the raw signing primitive rejects any input whose big-endian value is
at least the modulus, returning the input-validity error instead of
exponentiating. -/
theorem sign_hashed_rejects_oversized (priv : RsaPrivateKey) (x : List Nat)
    (h : priv.n ≤ fromBytesBE x) :
    sign_hashed priv x = .error .InputError := by
  unfold sign_hashed
  rw [if_neg (not_lt.mpr h)]

/-- Witness for C7: the byte string encoding 15 is not below the modulus 15
and is rejected. -/
theorem sign_hashed_rejects_oversized_witness :
    priv15.n ≤ fromBytesBE [15] ∧ sign_hashed priv15 [15] = .error .InputError :=
  ⟨by decide, sign_hashed_rejects_oversized priv15 [15] (by decide)⟩

/-- C9: the plain sign facade computes the digest under the public key derived
from the signing key itself, so its digest is below the modulus and the
input-validity branch of the raw primitive is unreachable: every outcome of
sign is either a signature or the hashing-failure error. -/
theorem sign_never_input_error (H : HashFn) (priv : RsaPrivateKey) (m : List Nat) :
    (∃ s, sign H priv m = .ok s) ∨ sign H priv m = .error .HashingError := by
  cases hh : hash_message H priv.to_public_key m with
  | error e =>
    right
    rw [sign_of_hash_error hh, hash_message_error hh]
  | ok p =>
    obtain ⟨dg, iv⟩ := p
    left
    exact ⟨_, by rw [sign_of_hash_ok hh, sign_hashed_of_lt (hash_message_ok hh).1]⟩

/-- C2: the full blind protocol round-trips: with a digest produced by the
expander, a drawn invertible blinding factor r, blind signing of the blinded
digest succeeds and the unblinded signature verifies against the original
digest. -/
theorem blind_protocol_roundtrip (H : HashFn) (priv : RsaPrivateKey)
    (m digest : List Nat) (iv r : Nat)
    (hn : 1 < priv.n)
    (hkey : ∀ x, x < priv.n → x ^ (priv.d * priv.e) % priv.n = x)
    (hr : r < priv.n) (hcop : Nat.Coprime r priv.n)
    (hh : hash_message H priv.to_public_key m = .ok (digest, iv)) :
    ∃ bs, sign_hashed priv (blind priv.to_public_key digest r).1 = .ok bs ∧
      verify_hashed priv.to_public_key digest
        (unblind priv.to_public_key bs (blind priv.to_public_key digest r).2) = .ok () := by
  have hv : fromBytesBE digest < priv.n := (hash_message_ok hh).1
  have hn0 : 0 < priv.n := by omega
  have hBlt : fromBytesBE digest * r ^ priv.e % priv.n < priv.n := Nat.mod_lt _ hn0
  have hb1 : (blind priv.to_public_key digest r).1
      = toBytesBE (fromBytesBE digest * r ^ priv.e % priv.n) := rfl
  have hsig : sign_hashed priv (blind priv.to_public_key digest r).1 =
      .ok (toBytesBEPad ((fromBytesBE digest * r ^ priv.e % priv.n) ^ priv.d % priv.n)
        (modByteLen priv.n)) := by
    rw [hb1, sign_hashed_of_lt (by rw [fromBytesBE_toBytesBE]; exact hBlt)]
    rw [fromBytesBE_toBytesBE]
  refine ⟨_, hsig, ?_⟩
  have h2 : (blind priv.to_public_key digest r).2 = toBytesBE r := rfl
  have hub : fromBytesBE (unblind priv.to_public_key
      (toBytesBEPad ((fromBytesBE digest * r ^ priv.e % priv.n) ^ priv.d % priv.n)
        (modByteLen priv.n))
      (blind priv.to_public_key digest r).2)
      = fromBytesBE digest ^ priv.d % priv.n := by
    unfold unblind internals_unblind
    rw [fromBytesBE_toBytesBE, h2, fromBytesBE_toBytesBE]
    rw [fromBytesBE_pad, fromBytesBE_toBytesBE]
    rw [to_public_key_n]
    exact rsa_unblind_core hn hkey hr hcop
  unfold verify_hashed
  rw [to_public_key_e, to_public_key_n, hub]
  rw [rsa_sign_verify_core hkey hv]
  simp

/-- Witness for C2 at the key n = 15, e = d = 3, digest [7] and blinding
factor 2. -/
theorem blind_protocol_roundtrip_witness :
    ∃ bs, sign_hashed priv15 (blind priv15.to_public_key [7] 2).1 = .ok bs ∧
      verify_hashed priv15.to_public_key [7]
        (unblind priv15.to_public_key bs (blind priv15.to_public_key [7] 2).2) = .ok () :=
  blind_protocol_roundtrip hash7 priv15 [] [7] 0 2 (by decide) (by decide)
    (by decide) (by decide) rfl

/-- C3 counterexample: at the key n = 15, e = d = 3, with the digest [7]
produced by the expander and the legitimately drawable invertible blinding
factor r = 1, the blind signature verifies against the original pre-blind
digest, refuting the claim that this verification always errors. -/
theorem blind_sig_verifies_with_unit_factor :
    hash_message hash7 priv15.to_public_key [] = .ok ([7], 0) ∧
      Nat.Coprime 1 priv15.n ∧
      (blind priv15.to_public_key [7] 1).1 = [7] ∧
      sign_hashed priv15 (blind priv15.to_public_key [7] 1).1 = .ok [13] ∧
      verify_hashed priv15.to_public_key [7] [13] = .ok () :=
  ⟨rfl, by decide, rfl, rfl, rfl⟩

/-- C3 (amended): the blind signature fails verification against the original
digest whenever the blinded digest value differs from the digest value, i.e.
whenever the blinding actually changed the digest; for blinding factors with
r^e = 1 mod n (such as r = 1) the two coincide and the blind signature does
verify, so this hypothesis is necessary. -/
theorem blind_sig_fails_on_pre_digest (H : HashFn) (priv : RsaPrivateKey)
    (m digest bs : List Nat) (iv r : Nat)
    (hkey : ∀ x, x < priv.n → x ^ (priv.d * priv.e) % priv.n = x)
    (hh : hash_message H priv.to_public_key m = .ok (digest, iv))
    (hneq : fromBytesBE digest * r ^ priv.e % priv.n ≠ fromBytesBE digest)
    (hbs : sign_hashed priv (blind priv.to_public_key digest r).1 = .ok bs) :
    verify_hashed priv.to_public_key digest bs = .error .VerificationError := by
  have hv : fromBytesBE digest < priv.n := (hash_message_ok hh).1
  have hn0 : 0 < priv.n := by omega
  have hBlt : fromBytesBE digest * r ^ priv.e % priv.n < priv.n := Nat.mod_lt _ hn0
  have hb1 : (blind priv.to_public_key digest r).1
      = toBytesBE (fromBytesBE digest * r ^ priv.e % priv.n) := rfl
  rw [hb1, sign_hashed_of_lt (by rw [fromBytesBE_toBytesBE]; exact hBlt)] at hbs
  rw [fromBytesBE_toBytesBE] at hbs
  have hbs2 : toBytesBEPad ((fromBytesBE digest * r ^ priv.e % priv.n) ^ priv.d % priv.n)
      (modByteLen priv.n) = bs := by injection hbs
  subst hbs2
  unfold verify_hashed
  rw [to_public_key_e, to_public_key_n]
  rw [fromBytesBE_pad, fromBytesBE_toBytesBE]
  rw [rsa_sign_verify_core hkey hBlt]
  rw [if_neg hneq]

/-- Witness for the amended C3 at the key n = 15 with blinding factor 2. -/
theorem blind_sig_fails_on_pre_digest_witness :
    verify_hashed priv15.to_public_key [7] [11] = .error .VerificationError :=
  blind_sig_fails_on_pre_digest hash7 priv15 [] [7] [11] 0 2 (by decide) rfl
    (by decide) rfl

/-- C5 counterexample: with the two-byte key n = 299, e = 5, d = 53 and the
constant-zero hash, the full blind pipeline produces via unblind a signature
of one byte, although the modulus byte length is two: unblind drops leading
zero bytes, so the claimed length equality is false. -/
theorem unblind_short_signature_counterexample :
    hash_message hash0 priv299.to_public_key [] = .ok ([0, 0], 0) ∧
      blind priv299.to_public_key [0, 0] 1 = ([0], [1]) ∧
      sign_hashed priv299 [0] = .ok [0, 0] ∧
      unblind priv299.to_public_key [0, 0] [1] = [0] ∧
      (unblind priv299.to_public_key [0, 0] [1]).length ≠
        modByteLen priv299.to_public_key.n :=
  ⟨rfl, rfl, rfl, rfl, by decide⟩

/-- C5 (amended): every signature value is strictly below the modulus; plain
sign returns exactly modulus-byte-length bytes, while unblind returns the
minimal big-endian encoding, whose length is at most, but not always equal
to, the modulus byte length. -/
theorem signature_shape (H : HashFn) (priv : RsaPrivateKey) (pub : RsaPublicKey)
    (m s bs u : List Nat)
    (hs : sign H priv m = .ok s) (hn : 0 < pub.n) :
    (s.length = modByteLen priv.n ∧ fromBytesBE s < priv.n) ∧
      ((unblind pub bs u).length ≤ modByteLen pub.n ∧
        fromBytesBE (unblind pub bs u) < pub.n) := by
  constructor
  · cases hh : hash_message H priv.to_public_key m with
    | error e =>
      rw [sign_of_hash_error hh] at hs
      exact absurd hs (by simp)
    | ok p =>
      obtain ⟨dg, iv⟩ := p
      rw [sign_of_hash_ok hh] at hs
      have hd : fromBytesBE dg < priv.n := (hash_message_ok hh).1
      have hn1 : 0 < priv.n := by omega
      rw [sign_hashed_of_lt hd] at hs
      have hs2 : toBytesBEPad (fromBytesBE dg ^ priv.d % priv.n) (modByteLen priv.n) = s := by
        injection hs
      subst hs2
      constructor
      · apply toBytesBEPad_length
        apply toBytesBE_length_le (modByteLen_pos hn1)
        calc fromBytesBE dg ^ priv.d % priv.n < priv.n := Nat.mod_lt _ hn1
          _ < 256 ^ modByteLen priv.n := lt_pow_modByteLen priv.n
      · rw [fromBytesBE_pad, fromBytesBE_toBytesBE]
        exact Nat.mod_lt _ hn1
  · have hlt : internals_unblind pub (fromBytesBE bs) (fromBytesBE u) < pub.n := by
      unfold internals_unblind
      exact Nat.mod_lt _ hn
    constructor
    · unfold unblind
      apply toBytesBE_length_le (modByteLen_pos hn)
      calc internals_unblind pub (fromBytesBE bs) (fromBytesBE u) < pub.n := hlt
        _ < 256 ^ modByteLen pub.n := lt_pow_modByteLen pub.n
    · unfold unblind
      rw [fromBytesBE_toBytesBE]
      exact hlt

/-- Witness for the amended C5: the plain signature [13] under the key n = 15
and an unblind output under the key n = 299. -/
theorem signature_shape_witness :
    (([13] : List Nat).length = modByteLen priv15.n ∧ fromBytesBE [13] < priv15.n) ∧
      ((unblind priv299.to_public_key [0, 7] [1]).length ≤
          modByteLen priv299.to_public_key.n ∧
        fromBytesBE (unblind priv299.to_public_key [0, 7] [1]) < priv299.to_public_key.n) :=
  signature_shape hash7 priv15 priv299.to_public_key [] [13] [0, 7] [1] rfl (by decide)

/-- C6: the plain-sign facade equals the spec composition of the hash
expander and the raw signing primitive, and the plain-verify facade equals
the spec composition of the hash expander and the raw verification
primitive. -/
theorem facades_are_compositions (H : HashFn) (priv : RsaPrivateKey)
    (pub : RsaPublicKey) (m s : List Nat) :
    sign H priv m = signSpec H priv m ∧ verify H pub m s = verifySpec H pub m s := by
  constructor
  · unfold sign signSpec expand
    cases hash_message H priv.to_public_key m with
    | error e => rfl
    | ok p =>
      obtain ⟨dg, iv⟩ := p
      rfl
  · unfold verify verifySpec expand
    cases hash_message H pub m with
    | error e => rfl
    | ok p =>
      obtain ⟨dg, iv⟩ := p
      rfl

/-- C8: blinding is randomized: under a valid RSA key pair, with a digest
value invertible mod n (the overwhelmingly probable case for expander
digests), two distinct blinding factors drawn below the modulus produce
distinct blinded digests. -/
theorem blind_randomized_distinct (priv : RsaPrivateKey) (digest : List Nat) (r1 r2 : Nat)
    (hn : 1 < priv.n)
    (hkey : ∀ x, x < priv.n → x ^ (priv.d * priv.e) % priv.n = x)
    (hd : Nat.Coprime (fromBytesBE digest) priv.n)
    (h1 : r1 < priv.n) (h2 : r2 < priv.n) (hne : r1 ≠ r2) :
    (blind priv.to_public_key digest r1).1 ≠ (blind priv.to_public_key digest r2).1 := by
  intro heq
  apply hne
  have heq2 : toBytesBE (fromBytesBE digest * r1 ^ priv.e % priv.n)
      = toBytesBE (fromBytesBE digest * r2 ^ priv.e % priv.n) := heq
  have hB : fromBytesBE digest * r1 ^ priv.e % priv.n
      = fromBytesBE digest * r2 ^ priv.e % priv.n := toBytesBE_inj heq2
  have hveq : fromBytesBE digest * r1 ^ priv.e ≡ fromBytesBE digest * r2 ^ priv.e
      [MOD priv.n] := hB
  have hi : fromBytesBE digest * modInverse (fromBytesBE digest) priv.n % priv.n = 1 :=
    modInverse_mul hn hd
  have hiM : fromBytesBE digest * modInverse (fromBytesBE digest) priv.n ≡ 1
      [MOD priv.n] := by
    unfold Nat.ModEq
    rw [hi, Nat.mod_eq_of_lt hn]
  have hpow : r1 ^ priv.e ≡ r2 ^ priv.e [MOD priv.n] := by
    calc r1 ^ priv.e
        = 1 * r1 ^ priv.e := by ring
      _ ≡ fromBytesBE digest * modInverse (fromBytesBE digest) priv.n * r1 ^ priv.e
          [MOD priv.n] := hiM.symm.mul_right _
      _ = modInverse (fromBytesBE digest) priv.n * (fromBytesBE digest * r1 ^ priv.e) := by
          ring
      _ ≡ modInverse (fromBytesBE digest) priv.n * (fromBytesBE digest * r2 ^ priv.e)
          [MOD priv.n] := hveq.mul_left _
      _ = fromBytesBE digest * modInverse (fromBytesBE digest) priv.n * r2 ^ priv.e := by
          ring
      _ ≡ 1 * r2 ^ priv.e [MOD priv.n] := hiM.mul_right _
      _ = r2 ^ priv.e := by ring
  have hp := Nat.ModEq.pow priv.d hpow
  have e1 : (r1 ^ priv.e) ^ priv.d = r1 ^ (priv.d * priv.e) := by
    rw [← pow_mul, mul_comm priv.e priv.d]
  have e2 : (r2 ^ priv.e) ^ priv.d = r2 ^ (priv.d * priv.e) := by
    rw [← pow_mul, mul_comm priv.e priv.d]
  rw [e1, e2] at hp
  unfold Nat.ModEq at hp
  rw [hkey r1 h1, hkey r2 h2] at hp
  exact hp

/-- Witness for C8 at the key n = 15 with digest [7] and factors 2 and 4. -/
theorem blind_randomized_distinct_witness :
    (blind priv15.to_public_key [7] 2).1 ≠ (blind priv15.to_public_key [7] 4).1 :=
  blind_randomized_distinct priv15 [7] 2 4 (by decide) (by decide) (by decide)
    (by decide) (by decide) (by decide)

/-- C10: blind validates nothing about its digest argument and cannot signal
an error: for every byte string, of any length, including the empty string
and strings whose value is at least the modulus, it returns the pair of byte
encodings of the blinded value and the factor; on oversized values it simply
proceeds with the modular arithmetic, blinding exactly as it would blind the
reduction of the digest mod n. -/
theorem blind_total_no_validation (pub : RsaPublicKey) (digest : List Nat) (r : Nat) :
    blind pub digest r
        = (toBytesBE (fromBytesBE digest * r ^ pub.e % pub.n), toBytesBE r) ∧
      (blind pub digest r).1 = (blind pub (toBytesBE (fromBytesBE digest % pub.n)) r).1 := by
  constructor
  · rfl
  · show toBytesBE (fromBytesBE digest * r ^ pub.e % pub.n)
        = toBytesBE (fromBytesBE (toBytesBE (fromBytesBE digest % pub.n)) * r ^ pub.e % pub.n)
    rw [fromBytesBE_toBytesBE]
    congr 1
    exact ((Nat.mod_modEq (fromBytesBE digest) pub.n).mul_right (r ^ pub.e)).symm

/-- Witness for C10 at the key n = 15 with the oversized two-byte digest
[255, 255] (value 65535, far above the modulus) and factor 2. -/
theorem blind_total_no_validation_witness :
    (blind priv15.to_public_key [255, 255] 2
        = (toBytesBE (fromBytesBE [255, 255] * 2 ^ priv15.to_public_key.e %
            priv15.to_public_key.n), toBytesBE 2)) ∧
      (blind priv15.to_public_key [255, 255] 2).1
        = (blind priv15.to_public_key
            (toBytesBE (fromBytesBE [255, 255] % priv15.to_public_key.n)) 2).1 :=
  blind_total_no_validation priv15.to_public_key [255, 255] 2
